import Mathlib

/-!
Shallow embedding of the movie-booking service core
(`include/booking_service.hpp`, `booking_service.cpp`):
the seat-label codec (`try_parse_seat_label`, `seat_label_from_index0`,
`seats_to_mask_or_fail`) and the per-show reservation ledger
(`list_available_seats`, `book_seats` with its CAS loop).

Machine integers are modelled as `Nat`/`Int`: seat masks use only bits
0..19 of a `uint32_t`, and every bitwise operation performed by the code
(`1u << i` with `i ≤ 19`, `|`, `&`) is overflow-free, so plain `Nat`
bit operations are exact. `std::stoi` is modelled with its C++ semantics:
skip leading whitespace, an optional single sign, then a non-empty digit
run, failing (exception, caught by the code) when no digit follows or the
value leaves the `int` range.
-/

namespace Booking

/-- Number of seats in each show (`kSeatCount` in the header). -/
def kSeatCount : Nat := 20

/-- The whitespace characters skipped by `std::stoi` (C locale `isspace`). -/
def isSpaceChar (c : Char) : Bool :=
  c = ' ' || c = '\t' || c = '\n' || c = Char.ofNat 11 || c = Char.ofNat 12 || c = '\r'

/-- Value of a run of decimal digits, most significant first. -/
def digitsToNat (ds : List Char) : Nat :=
  ds.foldl (fun a c => a * 10 + (c.toNat - 48)) 0

/-- Splits an optional single leading sign: returns (sign, chars consumed, rest). -/
def splitSign : List Char → Int × Nat × List Char
  | [] => (1, 0, [])
  | c :: t =>
    if c = '+' then (1, 1, t)
    else if c = '-' then ((-1 : Int), 1, t)
    else (1, 0, c :: t)

/-- Model of `std::stoi(s, &pos)` (base 10) on a character list: skips leading
whitespace, consumes an optional sign and a non-empty digit run, and returns
the parsed `int` value together with `pos`, the number of characters consumed.
Returns `none` where the C++ call throws (`invalid_argument` when no digit
follows, `out_of_range` when the value leaves the `int` range); the caller
catches both. -/
def stoiCore (cs : List Char) : Option (Int × Nat) :=
  let ws := cs.takeWhile isSpaceChar
  let s := splitSign (cs.dropWhile isSpaceChar)
  let ds := s.2.2.takeWhile Char.isDigit
  if ds = [] then none
  else
    let v : Int := s.1 * (digitsToNat ds : Int)
    if v < -2147483648 ∨ v > 2147483647 then none
    else some (v, ws.length + s.2.1 + ds.length)

/-- Embedding of `BookingService::try_parse_seat_label`: rejects labels shorter
than two characters, requires the first character to be `a` or `A`, runs
`std::stoi` on the remainder, requires the parse to consume the whole
remainder and the value to lie in `[1, kSeatCount]`, and returns the
zero-based index `value - 1`. -/
def try_parse_seat_label (label : String) : Option Nat :=
  let cs := label.toList
  if cs.length < 2 then none
  else
    match cs with
    | [] => none
    | c0 :: rest =>
      let row := if c0 = 'A' then 'a' else c0
      if row ≠ 'a' then none
      else
        match stoiCore rest with
        | none => none
        | some (num, pos) =>
          if pos ≠ cs.length - 1 then none
          else if num < 1 ∨ num > (kSeatCount : Int) then none
          else some (num - 1).toNat

/-- Embedding of `BookingService::seat_label_from_index0`. -/
def seat_label_from_index0 (index0 : Nat) : String :=
  "a" ++ toString (index0 + 1)

/-- Accumulator loop of `BookingService::seats_to_mask_or_fail`: processes the
labels in order, failing with the code's exact error message on the first
label that does not parse or whose bit is already set in the mask built so
far. -/
def seatsToMaskAux (mask : Nat) : List String → Except String Nat
  | [] => .ok mask
  | lbl :: rest =>
    match try_parse_seat_label lbl with
    | none => .error ("Invalid seat label: " ++ lbl)
    | some idx0 =>
      if mask &&& (1 <<< idx0) ≠ 0 then .error ("Duplicate seat label: " ++ lbl)
      else seatsToMaskAux (mask ||| (1 <<< idx0)) rest

/-- Embedding of `BookingService::seats_to_mask_or_fail`: `.ok mask` models the
non-empty-error-string-free return, `.error msg` models a return of `0` with
`out_error = msg`. -/
def seats_to_mask_or_fail (labels : List String) : Except String Nat :=
  seatsToMaskAux 0 labels

instance {ε α : Type} [DecidableEq ε] [DecidableEq α] :
    DecidableEq (Except ε α) := fun x y =>
  match x, y with
  | .error a, .error b =>
    if h : a = b then isTrue (by rw [h])
    else isFalse (by intro he; injection he with h2; exact h h2)
  | .ok a, .ok b =>
    if h : a = b then isTrue (by rw [h])
    else isFalse (by intro he; injection he with h2; exact h h2)
  | .error _, .ok _ => isFalse (by intro he; exact Except.noConfusion he)
  | .ok _, .error _ => isFalse (by intro he; exact Except.noConfusion he)

/-- Show identifiers are C++ `int`s. -/
abbrev ShowId := Int

/-- The per-show mutable state of the service: `some mask` for a show
registered in `show_state_`, `none` for an unknown show id (the `nullptr`
case of `get_state` / `get_state_mut`). -/
abbrev ServiceState := ShowId → Option Nat

/-- The state set up by the `BookingService` constructor: shows 1..4 are
registered, each with `booked_mask = 0`. -/
def initState : ServiceState := fun sid =>
  if sid = 1 ∨ sid = 2 ∨ sid = 3 ∨ sid = 4 then some 0 else none

/-- Writes a show's committed mask, leaving every other show untouched
(the effect of a successful `compare_exchange_weak` on that show's
`booked_mask`). -/
def setMask (st : ServiceState) (sid : ShowId) (m : Nat) : ServiceState :=
  fun s => if s = sid then some m else st s

/-- Embedding of `BookingService::list_available_seats`: an unknown show
yields the empty vector; otherwise one atomic load of the mask, then the
labels of the clear bits among indices `0 ≤ i < kSeatCount` in ascending
order. -/
def list_available_seats (st : ServiceState) (sid : ShowId) : List String :=
  match st sid with
  | none => []
  | some mask =>
    ((List.range kSeatCount).filter (fun i => mask &&& (1 <<< i) = 0)).map
      seat_label_from_index0

/-- Embedding of `BookingResult` (success flag + human-readable message). -/
structure BookingResult where
  success : Bool
  message : String
deriving DecidableEq, Repr

/-- Embedding of `BookingService::book_seats`. The CAS loop is modelled by
its effect in a single-threaded run: with no interference the first
`compare_exchange_weak` succeeds, so the loop either rejects on overlap or
commits `current | req` in one step. -/
def book_seats (st : ServiceState) (sid : ShowId) (labels : List String) :
    BookingResult × ServiceState :=
  match st sid with
  | none => (⟨false, "Invalid show id"⟩, st)
  | some current =>
    if labels = [] then (⟨false, "No seats provided"⟩, st)
    else
      match seats_to_mask_or_fail labels with
      | .error msg => (⟨false, msg⟩, st)
      | .ok req =>
        if current &&& req ≠ 0 then
          (⟨false, "One or more seats already booked"⟩, st)
        else
          (⟨true, "Booked successfully"⟩, setMask st sid (current ||| req))

/-- The operations in scope on the service after construction. -/
inductive Op where
  | book (sid : ShowId) (labels : List String)
  | avail (sid : ShowId)

/-- State transition of one operation: `book_seats` may write a mask;
`list_available_seats` is `const` and leaves the state unchanged. -/
def applyOp (st : ServiceState) : Op → ServiceState
  | .book sid labels => (book_seats st sid labels).2
  | .avail _ => st

/-- Runs a sequence of operations from a starting state. -/
def runOps (st : ServiceState) (ops : List Op) : ServiceState :=
  ops.foldl applyOp st

/-- Linearization of the successful `compare_exchange_weak` operations of the
CAS loop on one show's `booked_mask` (lines 99-110 of the source): starting
from mask `m`, each successful claim observed `current` disjoint from its
request `req` and atomically replaced `current` with `current ||| req`; the
mask is touched by nothing else. `validHistory m rs` states that the request
masks `rs`, in the order their CASes succeeded, each passed the decisive
`(current & req) != 0` check. -/
def validHistory : Nat → List Nat → Bool
  | _, [] => true
  | m, r :: rs => (m &&& r == 0) && validHistory (m ||| r) rs

/-- Parses a whole list of labels; `some idxs` when each label parses. -/
def parseAll : List String → Option (List Nat)
  | [] => some []
  | l :: ls =>
    match try_parse_seat_label l with
    | none => none
    | some i =>
      match parseAll ls with
      | none => none
      | some is => some (i :: is)

/-- OR of the seat bits of a list of indices. -/
def orBits : List Nat → Nat
  | [] => 0
  | i :: is => (1 <<< i) ||| orBits is

/-! ### Bit-level helper lemmas -/

lemma one_shiftLeft_eq_pow (i : Nat) : 1 <<< i = 2 ^ i := by
  simp [Nat.shiftLeft_eq]

lemma testBit_bit_self (i : Nat) : (1 <<< i).testBit i = true := by
  rw [one_shiftLeft_eq_pow]; exact Nat.testBit_two_pow_self

lemma testBit_bit_ne {i j : Nat} (h : i ≠ j) : (1 <<< i).testBit j = false := by
  rw [one_shiftLeft_eq_pow]; exact Nat.testBit_two_pow_of_ne h

lemma land_eq_zero_iff {a b : Nat} :
    a &&& b = 0 ↔ ∀ i, a.testBit i = false ∨ b.testBit i = false := by
  constructor
  · intro h i
    cases ha : a.testBit i with
    | false => exact Or.inl rfl
    | true =>
      refine Or.inr ?_
      have h2 := congrArg (Nat.testBit · i) h
      simp only [Nat.testBit_land, Nat.zero_testBit, ha, Bool.true_and] at h2
      exact h2
  · intro h
    apply Nat.eq_of_testBit_eq
    intro i
    rw [Nat.testBit_land, Nat.zero_testBit]
    rcases h i with h1 | h1 <;> simp [h1]

lemma lor_eq_zero_iff {a b : Nat} : a ||| b = 0 ↔ a = 0 ∧ b = 0 := by
  constructor
  · intro h
    constructor <;> apply Nat.eq_of_testBit_eq <;> intro i <;>
      have h2 := congrArg (Nat.testBit · i) h <;>
      simp only [Nat.testBit_lor, Nat.zero_testBit, Bool.or_eq_false_iff] at h2
    · exact h2.1.trans (Nat.zero_testBit i).symm
    · exact h2.2.trans (Nat.zero_testBit i).symm
  · rintro ⟨rfl, rfl⟩
    rfl

lemma submask_iff {a b : Nat} :
    a &&& b = a ↔ ∀ i, a.testBit i = true → b.testBit i = true := by
  constructor
  · intro h i hi
    have h2 := congrArg (Nat.testBit · i) h
    simp only [Nat.testBit_land, hi, Bool.true_and] at h2
    exact h2
  · intro h
    apply Nat.eq_of_testBit_eq
    intro i
    rw [Nat.testBit_land]
    cases ha : a.testBit i
    · simp
    · simp [h i ha]

lemma land_self_eq (a : Nat) : a &&& a = a :=
  submask_iff.mpr fun _ hi => hi

lemma land_lor_self (a b : Nat) : a &&& (a ||| b) = a :=
  submask_iff.mpr fun i hi => by rw [Nat.testBit_lor, hi, Bool.true_or]

lemma submask_trans {a b c : Nat} (h1 : a &&& b = a) (h2 : b &&& c = b) :
    a &&& c = a :=
  submask_iff.mpr fun i hi => submask_iff.mp h2 i (submask_iff.mp h1 i hi)

lemma lor_land_distrib (a b c : Nat) :
    (a ||| b) &&& c = (a &&& c) ||| (b &&& c) := by
  apply Nat.eq_of_testBit_eq
  intro i
  rw [Nat.testBit_land, Nat.testBit_lor, Nat.testBit_lor, Nat.testBit_land,
    Nat.testBit_land]
  cases a.testBit i <;> cases b.testBit i <;> cases c.testBit i <;> rfl

lemma land_bit_eq_zero_iff {m i : Nat} :
    m &&& (1 <<< i) = 0 ↔ m.testBit i = false := by
  constructor
  · intro h
    rcases land_eq_zero_iff.mp h i with h1 | h1
    · exact h1
    · rw [testBit_bit_self] at h1
      exact absurd h1 (by simp)
  · intro h
    refine land_eq_zero_iff.mpr fun j => ?_
    by_cases hj : i = j
    · subst hj
      exact Or.inl h
    · exact Or.inr (testBit_bit_ne hj)

lemma orBits_testBit (idxs : List Nat) (j : Nat) :
    (orBits idxs).testBit j = true ↔ j ∈ idxs := by
  induction idxs with
  | nil => simp [orBits, Nat.zero_testBit]
  | cons i is ih =>
    simp only [orBits, Nat.testBit_lor, Bool.or_eq_true, ih, List.mem_cons]
    constructor
    · rintro (h | h)
      · left
        by_contra hne
        rw [testBit_bit_ne fun he => hne he.symm] at h
        exact absurd h (by simp)
      · exact Or.inr h
    · rintro (rfl | h)
      · exact Or.inl (testBit_bit_self j)
      · exact Or.inr h

/-! ### Parser lemmas -/

lemma parse_some_lt {l : String} {i : Nat}
    (h : try_parse_seat_label l = some i) : i < kSeatCount := by
  simp only [try_parse_seat_label] at h
  rw [show ((kSeatCount : Nat) : Int) = 20 from rfl] at h
  rw [show kSeatCount = 20 from rfl]
  repeat'
    first
      | exact Option.noConfusion h
      | split at h
  all_goals
    rename_i hrange
    injection h with h
    omega

lemma parse_label_roundtrip :
    ∀ i, i < kSeatCount → try_parse_seat_label (seat_label_from_index0 i) = some i := by
  decide

/-! ### Encoder lemmas -/

lemma parseAll_cons_some {l : String} {ls : List String} {idxs : List Nat}
    (h : parseAll (l :: ls) = some idxs) :
    ∃ i is, try_parse_seat_label l = some i ∧ parseAll ls = some is ∧
      idxs = i :: is := by
  simp only [parseAll] at h
  split at h
  · exact Option.noConfusion h
  · rename_i i hi
    split at h
    · exact Option.noConfusion h
    · rename_i is his
      injection h with h
      exact ⟨i, is, hi, his, h.symm⟩

lemma seatsToMaskAux_append (pre : List String) (idxs : List Nat)
    (suf : List String) (m : Nat)
    (hp : parseAll pre = some idxs) (hnd : idxs.Nodup)
    (hdisj : ∀ i ∈ idxs, m.testBit i = false) :
    seatsToMaskAux m (pre ++ suf) = seatsToMaskAux (m ||| orBits idxs) suf := by
  induction pre generalizing idxs m with
  | nil =>
    simp only [parseAll] at hp
    injection hp with hp
    subst hp
    simp [orBits]
  | cons l ls ih =>
    obtain ⟨i, is, hi, his, rfl⟩ := parseAll_cons_some hp
    rw [List.nodup_cons] at hnd
    simp only [List.cons_append, seatsToMaskAux, hi, List.append_eq]
    rw [if_neg (by
      rw [not_ne_iff]
      exact land_bit_eq_zero_iff.mpr (hdisj i (List.mem_cons_self i is)))]
    rw [ih is (m ||| 1 <<< i) his hnd.2 (fun j hj => by
      rw [Nat.testBit_lor, hdisj j (List.mem_cons_of_mem i hj), Bool.false_or]
      exact testBit_bit_ne fun he => hnd.1 (by rw [he]; exact hj))]
    rw [show orBits (i :: is) = (1 <<< i) ||| orBits is from rfl, ← Nat.lor_assoc]

lemma encode_ok (labels : List String) (idxs : List Nat)
    (hp : parseAll labels = some idxs) (hnd : idxs.Nodup) :
    seats_to_mask_or_fail labels = .ok (orBits idxs) := by
  have h := seatsToMaskAux_append labels idxs [] 0 hp hnd
    (fun i _ => Nat.zero_testBit i)
  rw [List.append_nil] at h
  rw [seats_to_mask_or_fail, h]
  simp [seatsToMaskAux]

lemma encode_invalid (pre : List String) (idxs : List Nat) (l : String)
    (suf : List String)
    (hp : parseAll pre = some idxs) (hnd : idxs.Nodup)
    (hl : try_parse_seat_label l = none) :
    seats_to_mask_or_fail (pre ++ l :: suf) =
      .error ("Invalid seat label: " ++ l) := by
  rw [seats_to_mask_or_fail,
    seatsToMaskAux_append pre idxs (l :: suf) 0 hp hnd
      (fun i _ => Nat.zero_testBit i)]
  simp [seatsToMaskAux, hl]

lemma encode_duplicate (pre : List String) (idxs : List Nat) (l : String)
    (suf : List String) (i : Nat)
    (hp : parseAll pre = some idxs) (hnd : idxs.Nodup)
    (hl : try_parse_seat_label l = some i) (hmem : i ∈ idxs) :
    seats_to_mask_or_fail (pre ++ l :: suf) =
      .error ("Duplicate seat label: " ++ l) := by
  rw [seats_to_mask_or_fail,
    seatsToMaskAux_append pre idxs (l :: suf) 0 hp hnd
      (fun i _ => Nat.zero_testBit i)]
  have h0 : (0 : Nat) ||| orBits idxs = orBits idxs := by simp
  simp only [seatsToMaskAux, hl, h0]
  rw [if_pos (by
    intro he
    have hb := land_bit_eq_zero_iff.mp he
    rw [(orBits_testBit idxs i).mpr hmem] at hb
    exact Bool.noConfusion hb)]

/-! ### Ledger lemmas -/

lemma book_seats_fail_state (st : ServiceState) (sid : ShowId)
    (labels : List String)
    (h : (book_seats st sid labels).1.success = false) :
    (book_seats st sid labels).2 = st := by
  cases hst : st sid with
  | none => simp [book_seats, hst]
  | some current =>
    by_cases hne : labels = []
    · simp [book_seats, hst, hne]
    · cases hmask : seats_to_mask_or_fail labels with
      | error e => simp [book_seats, hst, hne, hmask]
      | ok req =>
        by_cases hc : current &&& req = 0
        · simp [book_seats, hst, hne, hmask, hc] at h
        · simp [book_seats, hst, hne, hmask, hc]

lemma book_step_submask (st : ServiceState) (sid : ShowId)
    (labels : List String) (tid : ShowId) (m : Nat) (h : st tid = some m) :
    ∃ m2, (book_seats st sid labels).2 tid = some m2 ∧ m &&& m2 = m := by
  cases hst : st sid with
  | none => exact ⟨m, by simp [book_seats, hst, h], land_self_eq m⟩
  | some current =>
    by_cases hne : labels = []
    · exact ⟨m, by simp [book_seats, hst, hne, h], land_self_eq m⟩
    · cases hmask : seats_to_mask_or_fail labels with
      | error e =>
        exact ⟨m, by simp [book_seats, hst, hne, hmask, h], land_self_eq m⟩
      | ok req =>
        by_cases hc : current &&& req = 0
        · by_cases ht : tid = sid
          · subst ht
            rw [h] at hst
            injection hst with he
            subst he
            refine ⟨m ||| req, ?_, land_lor_self m req⟩
            simp [book_seats, h, hne, hmask, hc, setMask]
          · refine ⟨m, ?_, land_self_eq m⟩
            simp [book_seats, hst, hne, hmask, hc, setMask, ht, h]
        · exact ⟨m, by simp [book_seats, hst, hne, hmask, hc, h],
            land_self_eq m⟩

lemma runOps_submask (ops : List Op) (st : ServiceState) (tid : ShowId)
    (m : Nat) (h : st tid = some m) :
    ∃ m2, runOps st ops tid = some m2 ∧ m &&& m2 = m := by
  induction ops generalizing st m with
  | nil => exact ⟨m, h, land_self_eq m⟩
  | cons op rest ih =>
    have hrw : runOps st (op :: rest) = runOps (applyOp st op) rest := rfl
    rw [hrw]
    cases op with
    | book sid labels =>
      obtain ⟨m1, h1, hs1⟩ := book_step_submask st sid labels tid m h
      obtain ⟨m2, h2, hs2⟩ := ih ((book_seats st sid labels).2) m1 h1
      exact ⟨m2, h2, submask_trans hs1 hs2⟩
    | avail sid => exact ih st m h

lemma encode_aux_lt (labels : List String) (m r : Nat)
    (h : seatsToMaskAux m labels = .ok r) (hm : m < 2 ^ kSeatCount) :
    r < 2 ^ kSeatCount := by
  induction labels generalizing m with
  | nil =>
    simp only [seatsToMaskAux] at h
    injection h with h
    exact h ▸ hm
  | cons l ls ih =>
    simp only [seatsToMaskAux] at h
    split at h
    · exact Except.noConfusion h
    · rename_i i hi
      split at h
      · exact Except.noConfusion h
      · refine ih _ h ?_
        have hlt : (1 <<< i) < 2 ^ kSeatCount := by
          rw [one_shiftLeft_eq_pow]
          exact Nat.pow_lt_pow_right (by omega) (parse_some_lt hi)
        exact Nat.bitwise_lt_two_pow hm hlt

lemma encode_lt (labels : List String) (req : Nat)
    (h : seats_to_mask_or_fail labels = .ok req) : req < 2 ^ kSeatCount :=
  encode_aux_lt labels 0 req h (by decide)

lemma book_step_lt (st : ServiceState) (sid : ShowId) (labels : List String)
    (hst : ∀ t m, st t = some m → m < 2 ^ kSeatCount) :
    ∀ t m, (book_seats st sid labels).2 t = some m → m < 2 ^ kSeatCount := by
  intro t m h
  cases hs : st sid with
  | none =>
    simp only [book_seats, hs] at h
    exact hst t m h
  | some current =>
    by_cases hne : labels = []
    · simp only [book_seats, hs, hne, if_pos] at h
      exact hst t m h
    · cases hmask : seats_to_mask_or_fail labels with
      | error e =>
        simp only [book_seats, hs, hne, if_neg, hmask] at h
        exact hst t m h
      | ok req =>
        by_cases hc : current &&& req = 0
        · by_cases ht : t = sid
          · subst ht
            simp [book_seats, hs, hne, hmask, hc, setMask] at h
            exact h ▸ Nat.bitwise_lt_two_pow (hst t current hs)
              (encode_lt labels req hmask)
          · simp [book_seats, hs, hne, hmask, hc, setMask, ht] at h
            exact hst t m h
        · simp [book_seats, hs, hne, hmask, hc] at h
          exact hst t m h

lemma runOps_lt (ops : List Op) (st : ServiceState)
    (hst : ∀ t m, st t = some m → m < 2 ^ kSeatCount) :
    ∀ t m, runOps st ops t = some m → m < 2 ^ kSeatCount := by
  induction ops generalizing st with
  | nil => exact hst
  | cons op rest ih =>
    intro t m h
    have hrw : runOps st (op :: rest) = runOps (applyOp st op) rest := rfl
    rw [hrw] at h
    cases op with
    | book s labels => exact ih _ (book_step_lt st s labels hst) t m h
    | avail s => exact ih st hst t m h

lemma initState_lt : ∀ t m, initState t = some m → m < 2 ^ kSeatCount := by
  intro t m h
  simp only [initState] at h
  split at h
  · injection h with h
    subst h
    decide
  · exact Option.noConfusion h

lemma validHistory_disjoint (m : Nat) (rs : List Nat)
    (h : validHistory m rs = true) :
    rs.Pairwise (fun a b => a &&& b = 0) ∧ ∀ r ∈ rs, m &&& r = 0 := by
  induction rs generalizing m with
  | nil => exact ⟨List.Pairwise.nil, by simp⟩
  | cons r rs ih =>
    simp only [validHistory, Bool.and_eq_true, beq_iff_eq] at h
    obtain ⟨h1, h2⟩ := h
    obtain ⟨hp, hall⟩ := ih (m ||| r) h2
    have hsplit : ∀ x ∈ rs, m &&& x = 0 ∧ r &&& x = 0 := by
      intro x hx
      have hz := hall x hx
      rw [lor_land_distrib] at hz
      exact lor_eq_zero_iff.mp hz
    refine ⟨List.Pairwise.cons (fun x hx => (hsplit x hx).2) hp, ?_⟩
    intro x hx
    rcases List.mem_cons.mp hx with rfl | hx
    · exact h1
    · exact (hsplit x hx).1

/-! ### Character and scan helpers for the stoi characterization -/

lemma isDigit_not_space {c : Char} (h : c.isDigit = true) :
    isSpaceChar c = false := by
  by_contra hs
  rw [Bool.not_eq_false] at hs
  simp only [isSpaceChar, Bool.or_eq_true, decide_eq_true_eq] at hs
  rcases hs with ((((rfl | rfl) | rfl) | rfl) | rfl) | rfl <;>
    exact absurd h (by decide)

lemma isDigit_ne_plus {c : Char} (h : c.isDigit = true) : c ≠ '+' := by
  rintro rfl
  exact absurd h (by decide)

lemma isDigit_ne_minus {c : Char} (h : c.isDigit = true) : c ≠ '-' := by
  rintro rfl
  exact absurd h (by decide)

lemma takeWhile_append_of_all {p : Char → Bool} (l1 l2 : List Char)
    (h : ∀ a ∈ l1, p a = true) :
    (l1 ++ l2).takeWhile p = l1 ++ l2.takeWhile p := by
  induction l1 with
  | nil => simp
  | cons a t ih =>
    rw [List.cons_append, List.takeWhile_cons,
      if_pos (h a (List.mem_cons_self a t)),
      ih (fun x hx => h x (List.mem_cons_of_mem a hx)), List.cons_append]

lemma dropWhile_append_of_all {p : Char → Bool} (l1 l2 : List Char)
    (h : ∀ a ∈ l1, p a = true) :
    (l1 ++ l2).dropWhile p = l2.dropWhile p := by
  induction l1 with
  | nil => simp
  | cons a t ih =>
    rw [List.cons_append, List.dropWhile_cons,
      if_pos (h a (List.mem_cons_self a t)),
      ih (fun x hx => h x (List.mem_cons_of_mem a hx))]

lemma takeWhile_eq_self_of_all {p : Char → Bool} (l : List Char)
    (h : ∀ a ∈ l, p a = true) : l.takeWhile p = l := by
  induction l with
  | nil => rfl
  | cons a t ih =>
    rw [List.takeWhile_cons, if_pos (h a (List.mem_cons_self a t)),
      ih (fun x hx => h x (List.mem_cons_of_mem a hx))]

lemma takeWhile_cons_of_neg {p : Char → Bool} {c : Char} (t : List Char)
    (h : p c = false) : (c :: t).takeWhile p = [] := by
  rw [List.takeWhile_cons, if_neg (by simp [h])]

lemma dropWhile_cons_of_neg {p : Char → Bool} {c : Char} (t : List Char)
    (h : p c = false) : (c :: t).dropWhile p = c :: t := by
  rw [List.dropWhile_cons, if_neg (by simp [h])]

lemma stoiCore_some_full {cs : List Char} {num : Int}
    (h : stoiCore cs = some (num, cs.length)) (hpos : 0 < num) :
    ∃ ws sg ds, cs = ws ++ sg ++ ds ∧ (∀ a ∈ ws, isSpaceChar a = true) ∧
      (sg = [] ∨ sg = ['+']) ∧ ds ≠ [] ∧ (∀ a ∈ ds, a.isDigit = true) ∧
      num = (digitsToNat ds : Int) := by
  have hAB := List.takeWhile_append_dropWhile isSpaceChar cs
  have hlen := congrArg List.length hAB
  rw [List.length_append] at hlen
  simp only [stoiCore] at h
  cases hB : cs.dropWhile isSpaceChar with
  | nil =>
    rw [hB] at h
    simp [splitSign] at h
  | cons c t =>
    rw [hB] at h hAB hlen
    rw [List.length_cons] at hlen
    by_cases hcp : c = '+'
    · subst hcp
      rw [show splitSign ('+' :: t) = (1, 1, t) from by simp [splitSign]] at h
      dsimp only at h
      split at h
      · exact Option.noConfusion h
      · rename_i hne
        split at h
        · exact Option.noConfusion h
        · injection h with h
          injection h with h1 h2
          have hds : t.takeWhile Char.isDigit = t :=
            (List.takeWhile_prefix _).eq_of_length (by omega)
          rw [hds] at h1 hne
          refine ⟨cs.takeWhile isSpaceChar, ['+'], t, by
            rw [List.append_assoc]; exact hAB.symm, ?_, Or.inr rfl, hne, ?_, ?_⟩
          · exact fun a ha => List.mem_takeWhile_imp ha
          · intro a ha
            rw [← hds] at ha
            exact List.mem_takeWhile_imp ha
          · rw [← h1, one_mul]
    · by_cases hcm : c = '-'
      · subst hcm
        rw [show splitSign ('-' :: t) = ((-1 : Int), 1, t) from by
          simp [splitSign]] at h
        dsimp only at h
        split at h
        · exact Option.noConfusion h
        · split at h
          · exact Option.noConfusion h
          · injection h with h
            injection h with h1 h2
            omega
      · rw [show splitSign (c :: t) = (1, 0, c :: t) from by
          simp [splitSign, hcp, hcm]] at h
        dsimp only at h
        split at h
        · exact Option.noConfusion h
        · rename_i hne
          split at h
          · exact Option.noConfusion h
          · injection h with h
            injection h with h1 h2
            have hlc : ((c :: t).takeWhile Char.isDigit).length =
                (c :: t).length := by
              rw [List.length_cons]
              omega
            have hds : (c :: t).takeWhile Char.isDigit = c :: t :=
              (List.takeWhile_prefix _).eq_of_length hlc
            rw [hds] at h1 hne
            refine ⟨cs.takeWhile isSpaceChar, [], c :: t, by
              rw [List.append_assoc, List.nil_append]; exact hAB.symm, ?_,
              Or.inl rfl, hne, ?_, ?_⟩
            · exact fun a ha => List.mem_takeWhile_imp ha
            · intro a ha
              rw [← hds] at ha
              exact List.mem_takeWhile_imp ha
            · rw [← h1, one_mul]

lemma stoiCore_of_decomp (ws sg ds : List Char)
    (hws : ∀ a ∈ ws, isSpaceChar a = true) (hsg : sg = [] ∨ sg = ['+'])
    (hds : ds ≠ []) (hdig : ∀ a ∈ ds, a.isDigit = true)
    (hle : (digitsToNat ds : Int) ≤ 2147483647) :
    stoiCore (ws ++ sg ++ ds) =
      some ((digitsToNat ds : Int), ws.length + sg.length + ds.length) := by
  obtain ⟨d0, dt, rfl⟩ : ∃ d0 dt, ds = d0 :: dt := by
    cases ds with
    | nil => exact absurd rfl hds
    | cons a b => exact ⟨a, b, rfl⟩
  have hd0 := hdig d0 (List.mem_cons_self d0 dt)
  have htw : (ws ++ sg ++ (d0 :: dt)).takeWhile isSpaceChar = ws := by
    rw [List.append_assoc, takeWhile_append_of_all ws _ hws]
    rcases hsg with rfl | rfl
    · rw [List.nil_append, takeWhile_cons_of_neg _ (isDigit_not_space hd0),
        List.append_nil]
    · rw [show ['+'] ++ (d0 :: dt) = '+' :: (d0 :: dt) from rfl,
        takeWhile_cons_of_neg _ (by decide), List.append_nil]
  have hdw : (ws ++ sg ++ (d0 :: dt)).dropWhile isSpaceChar =
      sg ++ (d0 :: dt) := by
    rw [List.append_assoc, dropWhile_append_of_all ws _ hws]
    rcases hsg with rfl | rfl
    · exact dropWhile_cons_of_neg _ (isDigit_not_space hd0)
    · rw [show ['+'] ++ (d0 :: dt) = '+' :: (d0 :: dt) from rfl,
        dropWhile_cons_of_neg _ (by decide)]
  have hk0 : (0 : Int) ≤ (digitsToNat (d0 :: dt) : Int) := Int.ofNat_nonneg _
  simp only [stoiCore, htw, hdw]
  rcases hsg with rfl | rfl
  · rw [List.nil_append,
      show splitSign (d0 :: dt) = (1, 0, d0 :: dt) from by
        simp [splitSign, isDigit_ne_plus hd0, isDigit_ne_minus hd0]]
    dsimp only
    rw [takeWhile_eq_self_of_all _ hdig]
    rw [if_neg (by simp)]
    rw [if_neg (by rw [one_mul]; omega)]
    rw [one_mul]
    simp
  · rw [show ['+'] ++ (d0 :: dt) = '+' :: (d0 :: dt) from rfl,
      show splitSign ('+' :: (d0 :: dt)) = (1, 1, d0 :: dt) from by
        simp [splitSign]]
    dsimp only
    rw [takeWhile_eq_self_of_all _ hdig]
    rw [if_neg (by simp)]
    rw [if_neg (by rw [one_mul]; omega)]
    rw [one_mul]
    simp

/-- C4 (amended): a label is accepted by `try_parse_seat_label` exactly when
it is one row-prefix letter (`a` or `A`) followed by an optional run of
stoi-skipped whitespace, an optional single `+` sign, and a non-empty run of
decimal digits consuming the rest of the label, whose value lies in
`[1, kSeatCount]`; the returned index is value − 1. (A `-` sign always fails
the range check since the value turns negative, so only `+` or no sign can be
accepted; every other deviation — wrong prefix letter, trailing garbage,
out-of-range value — is rejected.) This corrects the claim that a sign
character or whitespace between the prefix and the digits is rejected. -/
theorem claim_C4_amended_format (label : String) (i : Nat) :
    try_parse_seat_label label = some i ↔
    ∃ c ws sg ds, label.toList = c :: (ws ++ sg ++ ds) ∧
      (c = 'a' ∨ c = 'A') ∧ (∀ a ∈ ws, isSpaceChar a = true) ∧
      (sg = [] ∨ sg = ['+']) ∧ ds ≠ [] ∧ (∀ a ∈ ds, a.isDigit = true) ∧
      1 ≤ digitsToNat ds ∧ digitsToNat ds ≤ kSeatCount ∧
      i = digitsToNat ds - 1 := by
  constructor
  · intro h
    simp only [try_parse_seat_label] at h
    rw [show ((kSeatCount : Nat) : Int) = 20 from rfl] at h
    split at h
    · exact Option.noConfusion h
    · split at h
      · exact Option.noConfusion h
      · rename_i hlen2 c0 rest hlist
        by_cases hrow : (if c0 = 'A' then 'a' else c0) ≠ 'a'
        · rw [if_pos hrow] at h
          exact Option.noConfusion h
        · rw [if_neg hrow] at h
          rw [not_ne_iff] at hrow
          split at h
          · exact Option.noConfusion h
          · rename_i num pos hsto
            split at h
            · exact Option.noConfusion h
            · rename_i hpos
              rw [not_ne_iff] at hpos
              split at h
              · exact Option.noConfusion h
              · rename_i hrange
                injection h with h
                have hrl : rest.length = label.toList.length - 1 := by
                  rw [hlist, List.length_cons]
                  omega
                rw [hpos, ← hrl] at hsto
                have hnum_pos : (0 : Int) < num := by omega
                obtain ⟨ws, sg, ds, hsplit, hws, hsg, hne, hdig, hnum⟩ :=
                  stoiCore_some_full hsto hnum_pos
                refine ⟨c0, ws, sg, ds, by rw [hlist, hsplit], ?_, hws, hsg,
                  hne, hdig, by omega, ?_, by omega⟩
                · by_cases hA : c0 = 'A'
                  · exact Or.inr hA
                  · rw [if_neg hA] at hrow
                    exact Or.inl hrow
                · rw [show kSeatCount = 20 from rfl]
                  omega
  · rintro ⟨c, ws, sg, ds, hlist, hc, hws, hsg, hne, hdig, h1, h2, rfl⟩
    have hdl : 0 < ds.length := List.length_pos.mpr hne
    have hsto := stoiCore_of_decomp ws sg ds hws hsg hne hdig (by
      rw [show kSeatCount = 20 from rfl] at h2
      omega)
    simp only [try_parse_seat_label, hlist]
    rw [show ((kSeatCount : Nat) : Int) = 20 from rfl]
    rw [if_neg (by
      rw [List.length_cons, List.length_append, List.length_append]
      omega)]
    have hrow : (if c = 'A' then 'a' else c) = 'a' := by
      rcases hc with rfl | rfl <;> simp
    rw [hrow]
    rw [if_neg (by simp)]
    simp only [hsto]
    rw [if_neg (not_ne_iff.mpr (by
      rw [List.length_cons, List.length_append, List.length_append]
      omega))]
    rw [if_neg (by
      rw [show kSeatCount = 20 from rfl] at h2
      omega)]
    exact congrArg some (by omega)

/-! ## Claim theorems -/

/-- C1: for a registered show with committed mask `current` and a non-empty
request whose labels all parse with no within-request duplicate (the encoder
returns a request mask `req`), `book_seats` returns the success result
exactly when `req` shares no bit with `current` at the decisive check; in
that case the show's committed mask afterwards is `current ||| req`, and
when some requested bit is already committed the result is the
already-booked rejection and the state is exactly the old state (no seat
from the request is committed). -/
theorem claim_C1_book_seats_all_or_nothing (st : ServiceState) (sid : ShowId)
    (labels : List String) (current req : Nat)
    (hst : st sid = some current) (hne : labels ≠ [])
    (hreq : seats_to_mask_or_fail labels = .ok req) :
    ((book_seats st sid labels).1.success = true ↔ current &&& req = 0) ∧
    (current &&& req = 0 →
      (book_seats st sid labels).1 = ⟨true, "Booked successfully"⟩ ∧
      (book_seats st sid labels).2 sid = some (current ||| req)) ∧
    (current &&& req ≠ 0 →
      (book_seats st sid labels).1 =
        ⟨false, "One or more seats already booked"⟩ ∧
      (book_seats st sid labels).2 = st) := by
  by_cases hc : current &&& req = 0
  · refine ⟨?_, fun _ => ?_, fun hcn => absurd hc hcn⟩ <;>
      simp [book_seats, hst, hne, hreq, hc, setMask]
  · refine ⟨?_, fun hcz => absurd hcz hc, fun _ => ?_⟩ <;>
      simp [book_seats, hst, hne, hreq, hc]

theorem claim_C1_book_seats_all_or_nothing_witness :
    initState 1 = some 0 ∧ (["a1", "a2"] : List String) ≠ [] ∧
    seats_to_mask_or_fail ["a1", "a2"] = .ok 3 ∧
    (((book_seats initState 1 ["a1", "a2"]).1.success = true ↔
        (0 : Nat) &&& 3 = 0) ∧
      ((0 : Nat) &&& 3 = 0 →
        (book_seats initState 1 ["a1", "a2"]).1 =
          ⟨true, "Booked successfully"⟩ ∧
        (book_seats initState 1 ["a1", "a2"]).2 1 = some ((0 : Nat) ||| 3)) ∧
      ((0 : Nat) &&& 3 ≠ 0 →
        (book_seats initState 1 ["a1", "a2"]).1 =
          ⟨false, "One or more seats already booked"⟩ ∧
        (book_seats initState 1 ["a1", "a2"]).2 = initState)) :=
  ⟨by decide, by decide, by decide,
    claim_C1_book_seats_all_or_nothing initState 1 ["a1", "a2"] 0 3
      (by decide) (by decide) (by decide)⟩

/-- C2: every `book_seats` outcome other than the success result leaves the
state exactly as it was (the unknown-show, empty-request, invalid-label,
duplicate-label and already-booked branches each commit zero bits), and the
validation outcomes (empty request or encoder failure) are decided purely
from the label list: two states that differ only in the show's committed
mask produce the same result, so validation is decided before any read of
the committed mask. -/
theorem claim_C2_failure_no_mutation (st : ServiceState) (sid : ShowId)
    (labels : List String) :
    ((book_seats st sid labels).1.success = false →
      (book_seats st sid labels).2 = st) ∧
    (∀ m m' : Nat,
      labels = [] ∨ (∃ e, seats_to_mask_or_fail labels = .error e) →
      (book_seats (setMask st sid m) sid labels).1 =
        (book_seats (setMask st sid m') sid labels).1) := by
  refine ⟨book_seats_fail_state st sid labels, ?_⟩
  intro m m' hv
  rcases hv with rfl | ⟨e, he⟩
  · simp [book_seats, setMask]
  · by_cases hne : labels = []
    · simp [book_seats, setMask, hne]
    · simp [book_seats, setMask, hne, he]

theorem claim_C2_failure_no_mutation_witness :
    (book_seats initState 1 ["a1", "a1"]).2 = initState ∧
    (book_seats (setMask initState 1 5) 1 ["a1", "a1"]).1 =
      (book_seats (setMask initState 1 9) 1 ["a1", "a1"]).1 :=
  ⟨(claim_C2_failure_no_mutation initState 1 ["a1", "a1"]).1 (by decide),
   (claim_C2_failure_no_mutation initState 1 ["a1", "a1"]).2 5 9
     (Or.inr ⟨"Duplicate seat label: a1", by decide⟩)⟩

/-- C3 (counterexample): the availability query for a show id that was never
registered returns the empty list — the very same value a registered but
fully-booked show yields — so there is no NotFound outcome distinguishable
from a successful empty seat sequence. Booking all twenty seats of show 1
and then listing its seats produces exactly the result of listing the
unknown show 99. -/
theorem claim_C3_counterexample :
    initState 99 = none ∧
    list_available_seats initState 99 = [] ∧
    (book_seats initState 1 (list_available_seats initState 1)).1.success =
      true ∧
    list_available_seats
      (book_seats initState 1 (list_available_seats initState 1)).2 1 = [] ∧
    list_available_seats initState 99 =
      list_available_seats
        (book_seats initState 1 (list_available_seats initState 1)).2 1 := by
  decide

/-- C3 (amended): for every unit identifier that was never registered at
initialization, `list_available_seats` returns the empty sequence — not a
distinguishable NotFound outcome; the empty vector is the same value a
fully-booked registered show produces. -/
theorem claim_C3_amended (st : ServiceState) (sid : ShowId)
    (h : st sid = none) : list_available_seats st sid = [] := by
  simp [list_available_seats, h]

theorem claim_C3_amended_witness :
    initState 99 = none ∧ list_available_seats initState 99 = [] :=
  ⟨by decide, claim_C3_amended initState 99 (by decide)⟩

/-- C4 (counterexample): the labels "a+5" (a sign character between the
prefix and the digits) and "a 17" (whitespace between the prefix and the
digits) deviate from the claimed strict letter-then-digits format, yet the
parser accepts both, because `std::stoi` skips leading whitespace and
accepts a leading sign. -/
theorem claim_C4_counterexample :
    try_parse_seat_label "a+5" = some 4 ∧
    try_parse_seat_label "a 17" = some 16 ∧
    ("a+5").toList = ['a', '+', '5'] ∧ ('+').isDigit = false ∧
    ("a 17").toList = ['a', ' ', '1', '7'] ∧ (' ').isDigit = false := by
  decide

/-- C5: for every index `i` in `[0, kSeatCount)`, parsing the label produced
by the formatter yields `i` back. -/
theorem claim_C5_roundtrip (i : Nat) (h : i < kSeatCount) :
    try_parse_seat_label (seat_label_from_index0 i) = some i :=
  parse_label_roundtrip i h

theorem claim_C5_roundtrip_witness :
    7 < kSeatCount ∧
    try_parse_seat_label (seat_label_from_index0 7) = some 7 :=
  ⟨by decide, claim_C5_roundtrip 7 (by decide)⟩

/-- C6: the encoder scans the labels strictly in input order. With `pre` the
labels already processed (all parse, indices `idxs`, no duplicate among
them), a next label that fails to parse yields the invalid-label error
naming exactly that label; a next label whose bit is already set by an
earlier label of the same request yields the duplicate error naming exactly
that label — the check consults only `idxs`, bits of this request, never any
committed state (no committed mask appears anywhere in the statement); and
when every label parses and none repeats, the encoder returns the OR of all
the labels' bits. -/
theorem claim_C6_encode_order (pre : List String) (idxs : List Nat)
    (l : String) (suf : List String)
    (hp : parseAll pre = some idxs) (hnd : idxs.Nodup) :
    (try_parse_seat_label l = none →
      seats_to_mask_or_fail (pre ++ l :: suf) =
        .error ("Invalid seat label: " ++ l)) ∧
    (∀ i, try_parse_seat_label l = some i → i ∈ idxs →
      seats_to_mask_or_fail (pre ++ l :: suf) =
        .error ("Duplicate seat label: " ++ l)) ∧
    seats_to_mask_or_fail pre = .ok (orBits idxs) :=
  ⟨fun hl => encode_invalid pre idxs l suf hp hnd hl,
   fun i hl hm => encode_duplicate pre idxs l suf i hp hnd hl hm,
   encode_ok pre idxs hp hnd⟩

theorem claim_C6_encode_order_witness :
    parseAll ["a1", "a2"] = some [0, 1] ∧ ([0, 1] : List Nat).Nodup ∧
    ((try_parse_seat_label "a1" = none →
        seats_to_mask_or_fail (["a1", "a2"] ++ "a1" :: ["a9"]) =
          .error ("Invalid seat label: " ++ "a1")) ∧
      (∀ i, try_parse_seat_label "a1" = some i → i ∈ [0, 1] →
        seats_to_mask_or_fail (["a1", "a2"] ++ "a1" :: ["a9"]) =
          .error ("Duplicate seat label: " ++ "a1")) ∧
      seats_to_mask_or_fail ["a1", "a2"] = .ok (orBits [0, 1])) :=
  ⟨by decide, by decide,
    claim_C6_encode_order ["a1", "a2"] [0, 1] "a1" ["a9"]
      (by decide) (by decide)⟩

/-- C7: the committed mask of every show is monotonically non-decreasing
over any sequence of `book_seats` and `list_available_seats` operations:
every bit set before the run is still set afterwards (`m &&& m2 = m` states
that `m` is a submask of the final mask `m2`). -/
theorem claim_C7_monotone (ops : List Op) (st : ServiceState) (sid : ShowId)
    (m : Nat) (h : st sid = some m) :
    ∃ m2, runOps st ops sid = some m2 ∧ m &&& m2 = m :=
  runOps_submask ops st sid m h

theorem claim_C7_monotone_witness :
    initState 1 = some 0 ∧
    ∃ m2, runOps initState [Op.book 1 ["a1"], Op.avail 1] 1 = some m2 ∧
      0 &&& m2 = 0 :=
  ⟨by decide,
    claim_C7_monotone [Op.book 1 ["a1"], Op.avail 1] initState 1 0
      (by decide)⟩

/-- C8: the availability listing enumerates the labels of clear bits in
ascending index order (parsing the produced labels back gives a strictly
increasing index sequence), and on the freshly constructed state show 1
lists all twenty labels a1..a20 in ascending order. -/
theorem claim_C8_available_ascending (st : ServiceState) (sid : ShowId) :
    List.Pairwise (· < ·)
      ((list_available_seats st sid).filterMap try_parse_seat_label) ∧
    list_available_seats initState 1 =
      ["a1", "a2", "a3", "a4", "a5", "a6", "a7", "a8", "a9", "a10", "a11",
       "a12", "a13", "a14", "a15", "a16", "a17", "a18", "a19", "a20"] := by
  constructor
  · cases hst : st sid with
    | none => simp [list_available_seats, hst]
    | some mask =>
      simp only [list_available_seats, hst]
      rw [List.filterMap_map]
      have hfm : ∀ l : List Nat, (∀ j ∈ l, j < kSeatCount) →
          l.filterMap (try_parse_seat_label ∘ seat_label_from_index0) = l := by
        intro l
        induction l with
        | nil => intro _; rfl
        | cons a t ih =>
          intro hmem
          simp only [List.filterMap_cons, Function.comp,
            parse_label_roundtrip a (hmem a (List.mem_cons_self a t)),
            ih (fun x hx => hmem x (List.mem_cons_of_mem a hx))]
      rw [hfm _ (fun j hj => List.mem_range.mp (List.mem_of_mem_filter hj))]
      exact List.Pairwise.sublist (List.filter_sublist _)
        (List.pairwise_lt_range kSeatCount)
  · decide

/-- C9: the CAS retry loop linearizes the successful claims of one show
into a history of request masks each passing the decisive overlap check
(`validHistory`); among any collection of claims whose request masks
pairwise overlap on at least one bit, at most one can appear among the
successful (Claimed) ones of such a history — no overbooking under
concurrency. -/
theorem claim_C9_no_overbooking (rs F : List Nat)
    (hv : validHistory 0 rs = true) (hsub : F.Sublist rs)
    (hov : F.Pairwise (fun a b => a &&& b ≠ 0)) : F.length ≤ 1 := by
  have hdisj := (validHistory_disjoint 0 rs hv).1
  have hF := List.Pairwise.sublist hsub hdisj
  rcases F with _ | ⟨a, F2⟩
  · simp
  rcases F2 with _ | ⟨b, t⟩
  · simp
  exfalso
  exact (List.pairwise_cons.mp hov).1 b (List.mem_cons_self b t)
    ((List.pairwise_cons.mp hF).1 b (List.mem_cons_self b t))

theorem claim_C9_no_overbooking_witness :
    validHistory 0 [3, 4] = true ∧ List.Sublist [3] [3, 4] ∧
    List.Pairwise (fun a b => a &&& b ≠ 0) [(3 : Nat)] ∧
    ([3] : List Nat).length ≤ 1 :=
  ⟨by decide, by simp, by simp,
    claim_C9_no_overbooking [3, 4] [3] (by decide) (by simp) (by simp)⟩

/-- C10: every committed mask reachable from the constructed state keeps all
bits above index kSeatCount − 1 clear (the upper 12 bits of the 32-bit mask
stay zero), because the encoder can only produce request masks below
2 ^ kSeatCount and `book_seats` only ORs such masks in. -/
theorem claim_C10_mask_bounded (ops : List Op) (sid : ShowId) (m : Nat)
    (h : runOps initState ops sid = some m) :
    (m < 2 ^ kSeatCount ∧ m >>> kSeatCount = 0) ∧
    ∀ labels req, seats_to_mask_or_fail labels = .ok req →
      req < 2 ^ kSeatCount := by
  have hm := runOps_lt ops initState initState_lt sid m h
  refine ⟨⟨hm, ?_⟩, fun labels req hr => encode_lt labels req hr⟩
  rw [Nat.shiftRight_eq_div_pow]
  exact Nat.div_eq_of_lt hm

theorem claim_C10_mask_bounded_witness :
    runOps initState [Op.book 1 ["a1"]] 1 = some 1 ∧
    ((1 < 2 ^ kSeatCount ∧ 1 >>> kSeatCount = 0) ∧
      ∀ labels req, seats_to_mask_or_fail labels = .ok req →
        req < 2 ^ kSeatCount) :=
  ⟨by decide, claim_C10_mask_bounded [Op.book 1 ["a1"]] 1 1 (by decide)⟩

end Booking
